import Mathlib

/-!
Shallow embedding of the Morse-code transcoding core of the repository.

The repository has two program variants with the same algorithms:
`src/main.c` and the unnamed `morse.c` variant.  Both contain a static
`MORSE_TABLE` (51 entries), `getCharacterCode` (first-match lookup by
character after `toupper`), `getCodeCharacter` (first-match reverse lookup
by exact code-string comparison, returning `'\0'` when not found),
`encodeText` and `decodeText`.  The two variants differ only in the table
contents (the `'8'`/`'9'` entries) and in that the `morse.c` variant's
`encodeText` takes a `useSlashWordspacer` flag.

C strings are modelled as `List Char`; the table's code strings as
`String` (compared by exact equality, as `strcmp` does).  The encoder's
and decoder's output buffers are modelled by the list of characters
written through the running index.
-/

/-- C `toupper` restricted to ASCII: lowercase letters are shifted down by
32, every other byte is returned unchanged. -/
def toupper (c : Char) : Char :=
  if 'a' ≤ c ∧ c ≤ 'z' then Char.ofNat (c.toNat - 32) else c

/-- The `MORSE_TABLE` of `src/main.c`, in source order.  Note the entries
`('Z', "--..")` and `('8', "--..")`. -/
def MORSE_TABLE : List (Char × String) := [
  ('A', ".-"),     ('B', "-..."),   ('C', "-.-."),   ('D', "-.."),
  ('E', "."),      ('F', "..-."),   ('G', "--."),    ('H', "...."),
  ('I', ".."),     ('J', ".---"),   ('K', "-.-"),    ('L', ".-.."),
  ('M', "--"),     ('N', "-."),     ('O', "---"),    ('P', ".--."),
  ('Q', "--.-"),   ('R', ".-."),    ('S', "..."),    ('T', "-"),
  ('U', "..-"),    ('V', "...-"),   ('W', ".--"),    ('X', "-..-"),
  ('Y', "-.--"),   ('Z', "--.."),   ('0', "-----"),  ('1', ".----"),
  ('2', "..---"),  ('3', "...--"),  ('4', "....-"),  ('5', "....."),
  ('6', "-...."),  ('7', "--..."),  ('8', "--.."),   ('9', "---.."),
  ('.', ".-.-.-"), (',', "--..--"), ('?', "..--.."), ('!', "-.-.--"),
  (' ', "/"),      (':', "---..."), (';', "-.-.-."), ('=', "-...-"),
  ('-', "-....-"), ('+', ".-.-."),  ('_', "..--.-"), ('(', "-.--."),
  (')', "-.--.-"), ('/', "-..-."),  ('@', ".--.-.")]

/-- The `MORSE_TABLE` of the `morse.c` variant (src/unnamed/part_000), in
source order.  Its digit entries are `('8', "---..")` and `('9', "----.")`. -/
def MORSE_TABLE_v2 : List (Char × String) := [
  ('A', ".-"),     ('B', "-..."),   ('C', "-.-."),   ('D', "-.."),
  ('E', "."),      ('F', "..-."),   ('G', "--."),    ('H', "...."),
  ('I', ".."),     ('J', ".---"),   ('K', "-.-"),    ('L', ".-.."),
  ('M', "--"),     ('N', "-."),     ('O', "---"),    ('P', ".--."),
  ('Q', "--.-"),   ('R', ".-."),    ('S', "..."),    ('T', "-"),
  ('U', "..-"),    ('V', "...-"),   ('W', ".--"),    ('X', "-..-"),
  ('Y', "-.--"),   ('Z', "--.."),   ('0', "-----"),  ('1', ".----"),
  ('2', "..---"),  ('3', "...--"),  ('4', "....-"),  ('5', "....."),
  ('6', "-...."),  ('7', "--..."),  ('8', "---.."),  ('9', "----."),
  ('.', ".-.-.-"), (',', "--..--"), (':', "---..."), (';', "-.-.-."),
  ('?', "..--.."), ('!', "-.-.--"), ('=', "-...-"),  ('-', "-....-"),
  ('+', ".-.-."),  ('_', "..--.-"), ('(', "-.--."),  (')', "-.--.-"),
  ('/', "-..-."),  ('@', ".--.-."), (' ', "/")]

/-- `getCharacterCode`: uppercase the character, then scan the table for
the first entry with that character; `none` models the C `NULL`. -/
def getCharacterCode (table : List (Char × String)) (c : Char) : Option String :=
  (table.find? (fun e => e.1 = toupper c)).map Prod.snd

/-- `getCodeCharacter`: scan the table for the first entry whose code
string equals the given code exactly; `Char.ofNat 0` models the C `'\0'`
sentinel returned when no entry matches. -/
def getCodeCharacter (table : List (Char × String)) (code : List Char) : Char :=
  match table.find? (fun e => e.2.data = code) with
  | some e => e.1
  | none => Char.ofNat 0

/-- One iteration of `encodeText`'s loop body.  State: the output written
so far, `lastWasSpace`, `firstChar`.  `useSlash` is the `morse.c`
variant's `useSlashWordspacer` flag; `src/main.c`'s loop is the
`useSlash = false` instance. -/
def encodeStep (table : List (Char × String)) (useSlash : Bool)
    (st : List Char × Bool × Bool) (c : Char) : List Char × Bool × Bool :=
  let (result, lastWasSpace, firstChar) := st
  if c = '\n' ∨ c = '\r' then
    (result, lastWasSpace, firstChar)
  else if c = ' ' then
    if !lastWasSpace && !firstChar then
      (result ++ (if useSlash then " / " else "   ").data, true, firstChar)
    else
      (result, true, firstChar)
  else
    let result1 := if !firstChar && !lastWasSpace then result ++ [' '] else result
    let result2 := match getCharacterCode table c with
      | some code => result1 ++ code.data
      | none => result1 ++ ['*']
    (result2, false, false)

/-- `encodeText`: fold the loop body over the input, starting from an
empty output with `lastWasSpace = false` and `firstChar = true`, and
return the output component. -/
def encodeText (table : List (Char × String)) (useSlash : Bool)
    (text : List Char) : List Char :=
  (text.foldl (encodeStep table useSlash) ([], false, true)).1

/-- One iteration of `decodeText`'s loop body.  State: the output written
so far, the pending `codeBuf` contents, and `spaceCount`.  The `codeBuf`
append is guarded by `codeBufIndex < sizeof(codeBuf) - 1`, i.e. `< 19`. -/
def decodeStep (table : List (Char × String))
    (st : List Char × List Char × Nat) (c : Char) : List Char × List Char × Nat :=
  let (result, codeBuf, spaceCount) := st
  if c = '\n' ∨ c = '\r' then
    (result, codeBuf, spaceCount)
  else if c = ' ' then
    let sc := spaceCount + 1
    if sc = 1 ∧ codeBuf ≠ [] then
      let ch := getCodeCharacter table codeBuf
      ((if ch ≠ Char.ofNat 0 then result ++ [ch] else result), [], sc)
    else if sc = 3 then
      (result ++ [' '], codeBuf, 0)
    else
      (result, codeBuf, sc)
  else if c = '/' then
    let result1 :=
      if codeBuf ≠ [] then
        let ch := getCodeCharacter table codeBuf
        if ch ≠ Char.ofNat 0 then result ++ [ch] else result
      else result
    (result1 ++ [' '], [], 0)
  else
    if codeBuf.length < 19 then (result, codeBuf ++ [c], 0)
    else (result, codeBuf, 0)

/-- The flush after `decodeText`'s loop: if a code is pending, look it up
and append the character unless the lookup returned `'\0'`. -/
def decodeFlush (table : List (Char × String))
    (st : List Char × List Char × Nat) : List Char :=
  let (result, codeBuf, _) := st
  if codeBuf ≠ [] then
    let ch := getCodeCharacter table codeBuf
    if ch ≠ Char.ofNat 0 then result ++ [ch] else result
  else result

/-- `decodeText`: fold the loop body over the input from the empty state,
then flush the pending code. -/
def decodeText (table : List (Char × String)) (morse : List Char) : List Char :=
  decodeFlush table (morse.foldl (decodeStep table) ([], [], 0))

/-- `src/main.c`'s `encodeText` (no slash flag; always triple-space). -/
def encodeTextMain (text : List Char) : List Char :=
  encodeText MORSE_TABLE false text

/-- `src/main.c`'s `decodeText`. -/
def decodeTextMain (morse : List Char) : List Char :=
  decodeText MORSE_TABLE morse

/-- The `morse.c` variant's `encodeText` with its `useSlashWordspacer` flag. -/
def encodeTextV2 (useSlash : Bool) (text : List Char) : List Char :=
  encodeText MORSE_TABLE_v2 useSlash text

/-- The `morse.c` variant's `decodeText`. -/
def decodeTextV2 (morse : List Char) : List Char :=
  decodeText MORSE_TABLE_v2 morse

/-- The supported character set named by the spec: `A`–`Z`, `a`–`z`,
`0`–`9`, the punctuation set, and space. -/
def supportedChars : List Char :=
  ("ABCDEFGHIJKLMNOPQRSTUVWXYZabcdefghijklmnopqrstuvwxyz0123456789" ++
   ".,:;?!=-+_()/@ ").data

/-- The `src/main.c` table with its space entry removed. -/
def MORSE_TABLE_noSpace : List (Char × String) :=
  MORSE_TABLE.filter fun e => !(e.1 == ' ')


/-- C1 (counterexample): the round trip fails as stated.  For space,
`encode(" ")` is empty (the space is consumed by the word-separator
branch), so `decode(encode(" "))` is `""`, not `" "`; and in the
`src/main.c` variant `encode("8")` is `"--.."`, whose reverse lookup hits
the earlier `('Z', "--..")` entry, so `decode(encode("8"))` is `"Z"`. -/
theorem C1_round_trip_counterexample :
    decodeTextMain (encodeTextMain [' ']) = [] ∧
    decodeTextMain (encodeTextMain [' ']) ≠ [' '] ∧
    decodeTextV2 (encodeTextV2 false [' ']) ≠ [' '] ∧
    decodeTextMain (encodeTextMain ['8']) = ['Z'] ∧
    decodeTextMain (encodeTextMain ['8']) ≠ ['8'] := by decide

/-- C1 (amended): for every supported character `c` other than space,
decoding the encoding of `[c]` yields `[uppercase c]` in the `morse.c`
variant; in the `src/main.c` variant the same holds for every supported
character other than space and `'8'`. -/
theorem C1_round_trip_amended :
    ∀ c ∈ supportedChars, c ≠ ' ' →
      decodeTextV2 (encodeTextV2 false [c]) = [toupper c] ∧
      (c ≠ '8' → decodeTextMain (encodeTextMain [c]) = [toupper c]) := by decide

/-- C1 (witness): the amended round trip at `c = 'a'`. -/
theorem C1_round_trip_amended_witness :
    decodeTextV2 (encodeTextV2 false ['a']) = [toupper 'a'] ∧
    (('a' : Char) ≠ '8' → decodeTextMain (encodeTextMain ['a']) = [toupper 'a']) :=
  C1_round_trip_amended 'a' (by decide) (by decide)

/-- C2: in `src/main.c`'s `MORSE_TABLE` the entries at indices 25 and 34
are `('Z', "--..")` and `('8', "--..")`, so the code strings are not
pairwise distinct and the table is not a bijection (the characters are
still pairwise distinct).  The `morse.c` variant's table is a true
bijection in both directions. -/
theorem C2_table_not_bijective :
    MORSE_TABLE[25]? = some ('Z', "--..") ∧
    MORSE_TABLE[34]? = some ('8', "--..") ∧
    ¬ (MORSE_TABLE.map Prod.snd).Nodup ∧
    (MORSE_TABLE.map Prod.fst).Nodup ∧
    (MORSE_TABLE_v2.map Prod.fst).Nodup ∧
    (MORSE_TABLE_v2.map Prod.snd).Nodup := by decide

/-- C5: on a `'/'` byte the decoder flushes the pending code buffer
exactly as the end-of-input flush does, appends one literal space, clears
the buffer and resets the space counter to 0; in particular
`decode(".- / -...") = "A B"`. -/
theorem C5_decode_slash :
    (∀ (r cb : List Char) (sc : Nat),
      decodeStep MORSE_TABLE (r, cb, sc) '/' =
        (decodeFlush MORSE_TABLE (r, cb, sc) ++ [' '], [], 0)) ∧
    decodeTextMain ".- / -...".data = "A B".data := by
  refine ⟨fun r cb sc => rfl, by decide⟩

/-- C6: with the slash-separator flag set, a space seen mid-word (state
`lastWasSpace = false`, `firstChar = false`) appends the three-byte
separator `" / "` instead of three spaces, while letters are still joined
by a single space; in particular
`encode("AB CD", slash=true) = ".- -... / -.-. -.."`. -/
theorem C6_slash_separator :
    (∀ r : List Char,
      encodeStep MORSE_TABLE_v2 true (r, false, false) ' ' =
        (r ++ " / ".data, true, false)) ∧
    encodeTextV2 true "AB CD".data = ".- -... / -.-. -..".data := by
  refine ⟨fun r => rfl, by decide⟩

/-- C7 (counterexample): a trailing run of spaces does produce a trailing
separator: `encode("A ") = ".-   "`, not `".-"` — the word separator is
emitted eagerly on the first space of a run, with no look-ahead for a
following word. -/
theorem C7_trailing_space_counterexample :
    encodeTextMain "A ".data = ".-   ".data ∧
    encodeTextMain "A".data = ".-".data ∧
    encodeTextMain "A ".data ≠ encodeTextMain "A".data := by decide

/-- A `'\n'` or `'\r'` byte leaves the encoder state unchanged. -/
theorem encodeStep_skip (tbl : List (Char × String)) (s : Bool)
    (st : List Char × Bool × Bool) (c : Char) (h : c = '\n' ∨ c = '\r') :
    encodeStep tbl s st c = st := by
  obtain ⟨r, lw, fc⟩ := st
  simp only [encodeStep, if_pos h]

/-- Folding the encoder over the input with `'\n'`/`'\r'` bytes removed
reaches the same state as folding over the raw input. -/
theorem foldl_encodeStep_filter (tbl : List (Char × String)) (s : Bool) :
    ∀ (t : List Char) (st : List Char × Bool × Bool),
      (t.filter fun c => !(c == '\n' || c == '\r')).foldl (encodeStep tbl s) st =
        t.foldl (encodeStep tbl s) st := by
  intro t
  induction t with
  | nil => intro st; rfl
  | cons c t ih =>
    intro st
    by_cases h : c = '\n' ∨ c = '\r'
    · have h1 : List.filter (fun c => !(c == '\n' || c == '\r')) (c :: t) =
          List.filter (fun c => !(c == '\n' || c == '\r')) t := by
        rcases h with h | h <;> subst h <;> simp [List.filter_cons]
      rw [h1, ih, List.foldl_cons, encodeStep_skip tbl s st c h]
    · push_neg at h
      have h1 : List.filter (fun c => !(c == '\n' || c == '\r')) (c :: t) =
          c :: List.filter (fun c => !(c == '\n' || c == '\r')) t := by
        simp [List.filter_cons, h.1, h.2]
      rw [h1, List.foldl_cons, List.foldl_cons, ih]

/-- C8: encode deletes `'\n'` and `'\r'` bytes as if absent (not as word
boundaries): encoding any text equals encoding the text with all `'\n'`
and `'\r'` bytes removed, in both variants; in particular
`encode("A\nB") = encode("AB") = ".- -..."` (single-space letter
separator, no word separator). -/
theorem C8_newline_stripping :
    (∀ t : List Char,
      encodeTextMain (t.filter fun c => !(c == '\n' || c == '\r')) = encodeTextMain t) ∧
    (∀ (s : Bool) (t : List Char),
      encodeTextV2 s (t.filter fun c => !(c == '\n' || c == '\r')) = encodeTextV2 s t) ∧
    encodeTextMain "A\nB".data = encodeTextMain "AB".data ∧
    encodeTextMain "A\nB".data = ".- -...".data := by
  refine ⟨?_, ?_, by decide, by decide⟩
  · intro t
    unfold encodeTextMain encodeText
    rw [foldl_encodeStep_filter]
  · intro s t
    unfold encodeTextV2 encodeText
    rw [foldl_encodeStep_filter]

/-- C4: encode and decode never fail and degrade asymmetrically.  A
character with no table entry (other than the skipped `'\n'`/`'\r'`)
makes the encoder append a literal `'*'` (after the usual letter
separator), while a pending code with no table match makes the decoder's
flush append nothing; in particular `encode("#") = "*"` and
`decode("#") = ""`. -/
theorem C4_degradation :
    (∀ (c : Char) (r : List Char) (lw fc : Bool),
      getCharacterCode MORSE_TABLE c = none → c ≠ '\n' → c ≠ '\r' →
      encodeStep MORSE_TABLE false (r, lw, fc) c =
        ((if !fc && !lw then r ++ [' '] else r) ++ ['*'], false, false)) ∧
    (∀ (r cb : List Char) (sc : Nat),
      getCodeCharacter MORSE_TABLE cb = Char.ofNat 0 →
      decodeFlush MORSE_TABLE (r, cb, sc) = r) ∧
    encodeTextMain "#".data = ['*'] ∧
    decodeTextMain "#".data = [] := by
  refine ⟨?_, ?_, by decide, by decide⟩
  · intro c r lw fc h hn hr
    have hs : c ≠ ' ' := by
      intro e
      rw [e, show getCharacterCode MORSE_TABLE ' ' = some "/" from rfl] at h
      exact Option.noConfusion h
    simp [encodeStep, hn, hr, hs, h]
  · intro r cb sc h
    simp [decodeFlush, h]

/-- C4 (witness): the encoder step at the unmapped character `'#'` from
the initial state appends a literal `'*'`. -/
theorem C4_degradation_witness :
    encodeStep MORSE_TABLE false ([], false, true) '#' =
      ((if !true && !false then ([] : List Char) ++ [' '] else []) ++ ['*'], false, false) :=
  C4_degradation.1 '#' [] false true (by decide) (by decide) (by decide)

/-- One decoder step grows the output by at most one character net of the
pending-code indicator: a `'/'` byte may append two characters (flushed
letter plus space), but only by consuming a non-empty pending code. -/
theorem decodeStep_length_le (tbl : List (Char × String))
    (st : List Char × List Char × Nat) (c : Char) :
    (decodeStep tbl st c).1.length + (if (decodeStep tbl st c).2.1 = [] then 0 else 1) ≤
      st.1.length + (if st.2.1 = [] then 0 else 1) + 1 := by
  obtain ⟨r, cb, sc⟩ := st
  simp only [decodeStep]
  repeat' split
  all_goals simp_all [List.length_append]
  all_goals omega

/-- The decoder fold grows the output (plus pending-code indicator) by at
most the number of consumed input bytes. -/
theorem foldl_decodeStep_length_le (tbl : List (Char × String)) :
    ∀ (m : List Char) (st : List Char × List Char × Nat),
      (m.foldl (decodeStep tbl) st).1.length +
          (if (m.foldl (decodeStep tbl) st).2.1 = [] then 0 else 1) ≤
        st.1.length + (if st.2.1 = [] then 0 else 1) + m.length := by
  intro m
  induction m with
  | nil => intro st; simp
  | cons c m ih =>
    intro st
    have h1 := decodeStep_length_le tbl st c
    have h2 := ih (decodeStep tbl st c)
    simp only [List.foldl_cons, List.length_cons]
    linarith

/-- The decoder's output is never longer than its input. -/
theorem decodeText_length_le (tbl : List (Char × String)) (m : List Char) :
    (decodeText tbl m).length ≤ m.length := by
  have h := foldl_decodeStep_length_le tbl m ([], [], 0)
  rcases hst : m.foldl (decodeStep tbl) ([], [], 0) with ⟨r, cb, sc⟩
  rw [hst] at h
  simp only [decodeText, hst, decodeFlush]
  simp at h
  by_cases hcb : cb = []
  · subst hcb
    simpa using h
  · rw [if_neg hcb] at h
    rw [if_pos hcb]
    split
    · simp only [List.length_append, List.length_cons, List.length_nil]
      omega
    · omega

/-- C3: for every input string, the decoder's output (hence the final
`resultIndex`) is at most the input length, in both variants; so every
write through `resultIndex`, including the trailing terminator at index
`resultIndex`, stays within the `strlen(morse) + 1` bytes `decodeText`
allocates. -/
theorem C3_decode_output_bounded (m : List Char) :
    (decodeTextMain m).length ≤ m.length ∧ (decodeTextV2 m).length ≤ m.length :=
  ⟨decodeText_length_le MORSE_TABLE m, decodeText_length_le MORSE_TABLE_v2 m⟩

/-- While `firstChar` is still set, the encoder's behaviour does not
depend on `lastWasSpace`: spaces are swallowed without emitting a
separator and the first emitted code is not preceded by one. -/
theorem foldl_encodeStep_firstChar (tbl : List (Char × String)) (s : Bool) :
    ∀ (t : List Char) (r : List Char) (b b' : Bool),
      (t.foldl (encodeStep tbl s) (r, b, true)).1 =
        (t.foldl (encodeStep tbl s) (r, b', true)).1 := by
  intro t
  induction t with
  | nil =>
    intro r b b'
    rfl
  | cons c t ih =>
    intro r b b'
    by_cases h1 : c = '\n' ∨ c = '\r'
    · rw [List.foldl_cons, List.foldl_cons, encodeStep_skip tbl s _ c h1,
        encodeStep_skip tbl s _ c h1]
      exact ih r b b'
    · by_cases h2 : c = ' '
      · subst h2
        rw [List.foldl_cons, List.foldl_cons]
        have e1 : encodeStep tbl s (r, b, true) ' ' = (r, true, true) := by
          simp [encodeStep, h1]
        have e2 : encodeStep tbl s (r, b', true) ' ' = (r, true, true) := by
          simp [encodeStep, h1]
        rw [e1, e2]
      · rw [List.foldl_cons, List.foldl_cons]
        have e1 : ∀ b : Bool, encodeStep tbl s (r, b, true) c =
            (r ++ (match getCharacterCode tbl c with
                   | some code => code.data
                   | none => ['*']), false, false) := by
          intro b
          simp [encodeStep, h1, h2]
          cases getCharacterCode tbl c <;> simp
        rw [e1 b, e1 b']

/-- Leading spaces are swallowed: encoding `k` spaces followed by `t`
equals encoding `t`, since while `firstChar` is set a space emits nothing
and suppresses the letter separator. -/
theorem encodeText_leading_spaces (tbl : List (Char × String)) (s : Bool) :
    ∀ (k : Nat) (t : List Char),
      encodeText tbl s (List.replicate k ' ' ++ t) = encodeText tbl s t := by
  intro k
  induction k with
  | zero => intro t; rfl
  | succ k ih =>
    intro t
    rw [List.replicate_succ, List.cons_append]
    unfold encodeText
    rw [List.foldl_cons]
    have e : encodeStep tbl s ([], false, true) ' ' = ([], true, true) := rfl
    rw [e, foldl_encodeStep_firstChar tbl s (List.replicate k ' ' ++ t) [] true false]
    exact ih t

/-- A second consecutive space leaves the encoder state unchanged:
processing a space always sets `lastWasSpace`, and a space seen with
`lastWasSpace` set emits nothing. -/
theorem encodeStep_space_space (tbl : List (Char × String)) (s : Bool)
    (st : List Char × Bool × Bool) :
    encodeStep tbl s (encodeStep tbl s st ' ') ' ' = encodeStep tbl s st ' ' := by
  obtain ⟨r, lw, fc⟩ := st
  cases lw <;> cases fc <;> rfl

/-- Interior space runs collapse: an extra space next to an existing one
does not change the encoder's output. -/
theorem encodeText_collapse_spaces (tbl : List (Char × String)) (s : Bool)
    (t u : List Char) :
    encodeText tbl s (t ++ ' ' :: ' ' :: u) = encodeText tbl s (t ++ ' ' :: u) := by
  unfold encodeText
  rw [List.foldl_append, List.foldl_append, List.foldl_cons, List.foldl_cons,
    List.foldl_cons, encodeStep_space_space]

/-- C7 (amended): a leading run of spaces produces no leading separator,
and every interior run of consecutive spaces collapses to the single word
separator the first space of the run emits (so
`encode("A   B") = encode("A B")`); but a trailing run of spaces after a
non-space character does leave one trailing word separator in the output,
because the separator is emitted eagerly on the run's first space. -/
theorem C7_whitespace_normalization_amended :
    (∀ (k : Nat) (t : List Char),
      encodeTextMain (List.replicate k ' ' ++ t) = encodeTextMain t) ∧
    (∀ (t u : List Char),
      encodeTextMain (t ++ ' ' :: ' ' :: u) = encodeTextMain (t ++ ' ' :: u)) ∧
    (∀ (s : Bool) (k : Nat) (t : List Char),
      encodeTextV2 s (List.replicate k ' ' ++ t) = encodeTextV2 s t) ∧
    (∀ (s : Bool) (t u : List Char),
      encodeTextV2 s (t ++ ' ' :: ' ' :: u) = encodeTextV2 s (t ++ ' ' :: u)) ∧
    encodeTextMain "A   B".data = encodeTextMain "A B".data ∧
    encodeTextMain "A   B".data = ".-   -...".data :=
  ⟨fun k t => encodeText_leading_spaces MORSE_TABLE false k t,
   fun t u => encodeText_collapse_spaces MORSE_TABLE false t u,
   fun s k t => encodeText_leading_spaces MORSE_TABLE_v2 s k t,
   fun s t u => encodeText_collapse_spaces MORSE_TABLE_v2 s t u,
   by decide, by decide⟩

/-- One decoder step keeps the pending code buffer within 19 bytes: the
append is guarded by `codeBufIndex < 19` and every other branch leaves
the buffer unchanged or clears it. -/
theorem decodeStep_codeBuf_le (tbl : List (Char × String))
    (st : List Char × List Char × Nat) (c : Char) (h : st.2.1.length ≤ 19) :
    ((decodeStep tbl st c).2.1).length ≤ 19 := by
  obtain ⟨r, cb, sc⟩ := st
  simp only [decodeStep]
  repeat' split
  all_goals simp_all [List.length_append]
  all_goals omega

/-- Throughout the decoder fold, the pending code buffer stays within 19
bytes (so `codeBuf[codeBufIndex]` is always a write inside the 20-byte
array). -/
theorem foldl_decodeStep_codeBuf_le (tbl : List (Char × String)) :
    ∀ (m : List Char) (st : List Char × List Char × Nat), st.2.1.length ≤ 19 →
      ((m.foldl (decodeStep tbl) st).2.1).length ≤ 19 := by
  intro m
  induction m with
  | nil => intro st h; exact h
  | cons c m ih =>
    intro st h
    rw [List.foldl_cons]
    exact ih (decodeStep tbl st c) (decodeStep_codeBuf_le tbl st c h)

/-- Folding the decoder over a non-empty run of code bytes (no space, no
slash, no newline) from a buffer within the cap accumulates exactly the
first 19 bytes of buffer-plus-run and resets the space counter. -/
theorem foldl_decodeStep_run (tbl : List (Char × String)) :
    ∀ (r : List Char), r ≠ [] →
      (∀ c ∈ r, c ≠ ' ' ∧ c ≠ '/' ∧ c ≠ '\n' ∧ c ≠ '\r') →
      ∀ (res cb : List Char) (sc : Nat), cb.length ≤ 19 →
        r.foldl (decodeStep tbl) (res, cb, sc) = (res, (cb ++ r).take 19, 0) := by
  intro r
  induction r with
  | nil => intro h; exact absurd rfl h
  | cons c r ih =>
    intro _ hrun res cb sc hlen
    have hc := hrun c (List.mem_cons_self c r)
    have hstep : decodeStep tbl (res, cb, sc) c =
        if cb.length < 19 then (res, cb ++ [c], 0) else (res, cb, 0) := by
      simp only [decodeStep]
      rw [if_neg (not_or.mpr ⟨hc.2.2.1, hc.2.2.2⟩), if_neg hc.1, if_neg hc.2.1]
    rw [List.foldl_cons, hstep]
    by_cases hlt : cb.length < 19
    · rw [if_pos hlt]
      cases r with
      | nil =>
        have hle : (cb ++ [c]).length ≤ 19 := by
          simp [List.length_append]
          omega
        simp [List.take_of_length_le hle]
      | cons d r' =>
        rw [ih (by simp) (fun x hx => hrun x (List.mem_cons_of_mem c hx)) res (cb ++ [c]) 0
          (by simp [List.length_append]; omega)]
        simp [List.append_assoc]
    · rw [if_neg hlt]
      have h19 : cb.length = 19 := le_antisymm hlen (not_lt.mp hlt)
      cases r with
      | nil =>
        rw [List.foldl_nil, List.take_append_of_le_length (by omega),
          List.take_of_length_le hlen]
      | cons d r' =>
        rw [ih (by simp) (fun x hx => hrun x (List.mem_cons_of_mem c hx)) res cb 0 hlen,
          List.take_append_of_le_length (by omega), List.take_append_of_le_length (by omega)]

/-- C9: the decoder's per-letter code buffer is capped at 19 bytes: the
buffer never exceeds 19 characters at any point of the fold (so the
flush's write at `codeBuf[codeBufIndex]` stays inside the 20-byte array),
and on an uninterrupted run of non-space, non-slash, non-newline bytes
the bytes after the 19th are discarded, so decoding the run equals
decoding its first 19 bytes. -/
theorem C9_codeBuf_capped :
    (∀ m : List Char,
      ((m.foldl (decodeStep MORSE_TABLE) ([], [], 0)).2.1).length ≤ 19) ∧
    (∀ r : List Char,
      (∀ c ∈ r, c ≠ ' ' ∧ c ≠ '/' ∧ c ≠ '\n' ∧ c ≠ '\r') →
      decodeTextMain r = decodeTextMain (r.take 19)) := by
  constructor
  · intro m
    exact foldl_decodeStep_codeBuf_le MORSE_TABLE m ([], [], 0) (by simp)
  · intro r hrun
    cases r with
    | nil => rfl
    | cons d r' =>
      have h1 := foldl_decodeStep_run MORSE_TABLE (d :: r') (by simp) hrun [] [] 0 (by simp)
      have htake : (d :: r').take 19 = d :: r'.take 18 := rfl
      have h2 := foldl_decodeStep_run MORSE_TABLE ((d :: r').take 19) (by simp [htake])
        (fun x hx => hrun x (List.take_subset 19 (d :: r') hx)) [] [] 0 (by simp)
      unfold decodeTextMain decodeText
      rw [h1, h2, List.nil_append, List.nil_append, List.take_take, min_self]

/-- C9 (witness): a run of 21 dots decodes the same as its first 19
dots. -/
theorem C9_codeBuf_capped_witness :
    decodeTextMain (List.replicate 21 '.') =
      decodeTextMain ((List.replicate 21 '.').take 19) :=
  C9_codeBuf_capped.2 (List.replicate 21 '.') (by decide)

/-- `toupper` maps only the space character to space: uppercasing a
lowercase letter lands in `'A'`–`'Z'`, and every other character is left
unchanged. -/
theorem toupper_ne_space (c : Char) (h : c ≠ ' ') : toupper c ≠ ' ' := by
  unfold toupper
  split
  · rename_i hlc
    have h1 : 97 ≤ c.toNat := by
      have := hlc.1
      rw [Char.le_def, UInt32.le_def, BitVec.le_def] at this
      exact this
    have h2 : c.toNat ≤ 122 := by
      have := hlc.2
      rw [Char.le_def, UInt32.le_def, BitVec.le_def] at this
      exact this
    intro he
    generalize hg : c.toNat = n at h1 h2 he
    interval_cases n
    all_goals exact absurd he (by decide)
  · exact h

/-- `find?` only depends on the predicate's values on the list. -/
theorem find?_pred_congr {α : Type} (p q : α → Bool) :
    ∀ (l : List α), (∀ a ∈ l, p a = q a) → l.find? p = l.find? q := by
  intro l
  induction l with
  | nil => intro _; rfl
  | cons a l ih =>
    intro h
    rw [List.find?_cons, List.find?_cons, h a (List.mem_cons_self a l),
      ih (fun x hx => h x (List.mem_cons_of_mem a hx))]

/-- Removing the space entry does not change any character lookup for a
non-space character, since `toupper` of a non-space character is not
space. -/
theorem getCharacterCode_noSpace (c : Char) (h : c ≠ ' ') :
    getCharacterCode MORSE_TABLE_noSpace c = getCharacterCode MORSE_TABLE c := by
  unfold getCharacterCode MORSE_TABLE_noSpace
  rw [List.find?_filter,
    find?_pred_congr _ _ MORSE_TABLE (fun e he => ?_)]
  by_cases hq : e.1 = toupper c
  · have hsp : e.1 ≠ ' ' := by
      rw [hq]
      exact toupper_ne_space c h
    simp [hq, hsp]
    exact toupper_ne_space c h
  · simp [hq]

/-- In `src/main.c`'s table, the only entry whose character is space is
the `(' ', "/")` entry. -/
theorem space_entry_code :
    ∀ e ∈ MORSE_TABLE, e.1 = ' ' → e.2 = "/" := by decide

/-- Removing the space entry does not change any reverse lookup of a code
other than `"/"`, since no other entry carries the character space. -/
theorem getCodeCharacter_noSpace (cb : List Char) (h : cb ≠ ['/']) :
    getCodeCharacter MORSE_TABLE_noSpace cb = getCodeCharacter MORSE_TABLE cb := by
  unfold getCodeCharacter MORSE_TABLE_noSpace
  rw [List.find?_filter,
    find?_pred_congr _ _ MORSE_TABLE (fun e he => ?_)]
  by_cases hq : e.2.data = cb
  · have hsp : e.1 ≠ ' ' := by
      intro hsp
      have h2 : e.2 = "/" := space_entry_code e he hsp
      apply h
      rw [← hq, h2]
    simp [hq, hsp]
  · simp [hq]

/-- The encoder step never consults the space entry: it behaves
identically over the table with the space entry removed, because the
space branch runs before any lookup. -/
theorem encodeStep_noSpace (s : Bool) (st : List Char × Bool × Bool) (c : Char) :
    encodeStep MORSE_TABLE_noSpace s st c = encodeStep MORSE_TABLE s st c := by
  obtain ⟨r, lw, fc⟩ := st
  by_cases h1 : c = '\n' ∨ c = '\r'
  · simp [encodeStep, h1]
  · by_cases h2 : c = ' '
    · subst h2
      simp [encodeStep, h1]
    · simp only [encodeStep, getCharacterCode_noSpace c h2]

/-- The decoder step never consults the space entry while the pending
code holds no `'/'` byte: the slash branch runs before any accumulation,
so the buffer passed to the reverse lookup is never `"/"`. -/
theorem decodeStep_noSpace (st : List Char × List Char × Nat) (c : Char)
    (h : ('/' : Char) ∉ st.2.1) :
    decodeStep MORSE_TABLE_noSpace st c = decodeStep MORSE_TABLE st c := by
  obtain ⟨r, cb, sc⟩ := st
  have hne : cb ≠ ['/'] := by
    intro e
    apply h
    rw [e]
    exact List.mem_singleton_self '/'
  simp only [decodeStep, getCodeCharacter_noSpace cb hne]

/-- The decoder step never puts a `'/'` byte into the pending code
buffer. -/
theorem decodeStep_no_slash (tbl : List (Char × String))
    (st : List Char × List Char × Nat) (c : Char) (h : ('/' : Char) ∉ st.2.1) :
    ('/' : Char) ∉ (decodeStep tbl st c).2.1 := by
  obtain ⟨r, cb, sc⟩ := st
  simp only [decodeStep]
  repeat' split
  all_goals simp_all [List.mem_append]
  all_goals exact fun e => (by simp_all : ¬c = '/') e.symm

/-- The decoder fold over the table without the space entry equals the
fold over the full table, from any state whose pending code holds no
`'/'`. -/
theorem foldl_decodeStep_noSpace :
    ∀ (m : List Char) (st : List Char × List Char × Nat), ('/' : Char) ∉ st.2.1 →
      m.foldl (decodeStep MORSE_TABLE_noSpace) st = m.foldl (decodeStep MORSE_TABLE) st := by
  intro m
  induction m with
  | nil => intro st _; rfl
  | cons c m ih =>
    intro st h
    rw [List.foldl_cons, List.foldl_cons, decodeStep_noSpace st c h]
    exact ih (decodeStep MORSE_TABLE st c) (decodeStep_no_slash MORSE_TABLE st c h)

/-- The final flush never consults the space entry either, under the same
no-`'/'` condition. -/
theorem decodeFlush_noSpace (st : List Char × List Char × Nat)
    (h : ('/' : Char) ∉ st.2.1) :
    decodeFlush MORSE_TABLE_noSpace st = decodeFlush MORSE_TABLE st := by
  obtain ⟨r, cb, sc⟩ := st
  have hne : cb ≠ ['/'] := by
    intro e
    apply h
    rw [e]
    exact List.mem_singleton_self '/'
  simp only [decodeFlush, getCodeCharacter_noSpace cb hne]

/-- The encoder fold over the table without the space entry equals the
fold over the full table, from any state. -/
theorem foldl_encodeStep_noSpace (s : Bool) :
    ∀ (t : List Char) (st : List Char × Bool × Bool),
      t.foldl (encodeStep MORSE_TABLE_noSpace s) st =
        t.foldl (encodeStep MORSE_TABLE s) st := by
  intro t
  induction t with
  | nil => intro st; rfl
  | cons c t ih =>
    intro st
    rw [List.foldl_cons, List.foldl_cons, encodeStep_noSpace s st c, ih]

/-- The decoder fold keeps the no-`'/'` invariant on the pending code
buffer. -/
theorem foldl_decodeStep_no_slash (tbl : List (Char × String)) :
    ∀ (m : List Char) (st : List Char × List Char × Nat), ('/' : Char) ∉ st.2.1 →
      ('/' : Char) ∉ ((m.foldl (decodeStep tbl) st).2.1) := by
  intro m
  induction m with
  | nil => intro st h; exact h
  | cons c m ih =>
    intro st h
    rw [List.foldl_cons]
    exact ih (decodeStep tbl st c) (decodeStep_no_slash tbl st c h)

/-- C10: the `(' ', "/")` table entry is never consulted.  Both
operations behave identically over the table with the space entry
removed: encode handles the space character in its word-separator branch
before any lookup (so `encode(" ") = ""` and a space never yields the
code `"/"`), and decode handles the `'/'` byte in its own branch before
accumulating (so `"/"` is never passed to the reverse lookup, and a `'/'`
byte just emits one literal space, `decode("/") = " "`). -/
theorem C10_space_entry_never_consulted :
    (∀ (s : Bool) (t : List Char),
      encodeText MORSE_TABLE_noSpace s t = encodeText MORSE_TABLE s t) ∧
    (∀ m : List Char,
      decodeText MORSE_TABLE_noSpace m = decodeText MORSE_TABLE m) ∧
    encodeTextMain " ".data = [] ∧
    decodeTextMain "/".data = [' '] := by
  refine ⟨?_, ?_, by decide, by decide⟩
  · intro s t
    unfold encodeText
    rw [foldl_encodeStep_noSpace]
  · intro m
    unfold decodeText
    rw [foldl_decodeStep_noSpace m ([], [], 0) (by simp),
      decodeFlush_noSpace _ (foldl_decodeStep_no_slash MORSE_TABLE m ([], [], 0) (by simp))]
